import Mathlib

/-!
Verification development for the IAVL balanced key/value tree
(`src/runtime/src/iavl.rs`): node representation, insertion with AVL
rebalancing, ordered search, and recursive Merkle digest computation.

Modelling conventions:
* `Box<Node>` is the node itself; `Option<Box<Node>>` children are
  `Option (Node K V)`.
* `[u8; 32]` digests are lists of byte values; the SHA3-256 function is an
  arbitrary parameter `sha : List Nat → Bytes32` of the digest engine, so
  every digest theorem holds for the actual compression function as well.
* The `u8` height field is modelled as `Nat` and the `i8` balance factor as
  `Int`: wraparound would need a tree of height 128 and hence at least
  `Fib 130 ≈ 2^88` entries, which no constructible execution reaches.
* The `unreachable!` / `unwrap` panic sites in `balance` and the four
  rotation routines are modelled by `Option`-valued functions returning
  `none` exactly where the Rust code would abort.
* Mutation (`&mut`) is modelled by returning the rebuilt value;
  `update_hash`, which both caches digests and returns one, returns the
  rewritten node paired with the digest.
-/

set_option linter.unusedSectionVars false
set_option maxHeartbeats 1600000

namespace Iavl

/-- 32-byte digests (`[u8; 32]`) are modelled as lists of byte values. -/
abbrev Bytes32 := List Nat

/-- The reserved all-zero placeholder digest `[0; 32]`. -/
def zeros32 : Bytes32 := List.replicate 32 0

/-- `Node<K, V>`: a `Leaf { key, value, version, hash }` or an
`Inner { left, right, key, hash, height, version }`. -/
inductive Node (K V : Type) : Type where
  | Leaf (key : K) (value : V) (version : Nat) (hash : Option Bytes32)
  | Inner (left right : Option (Node K V)) (key : K) (hash : Option Bytes32)
      (height : Nat) (version : Nat)

variable {K V : Type}

namespace Node

/-- `Node::new_leaf`. -/
def new_leaf (key : K) (value : V) (version : Nat) : Node K V :=
  .Leaf key value version none

/-- `Node::new_inner`: both children present, height 1, no cached digest. -/
def new_inner (key : K) (left right : Node K V) (version : Nat) : Node K V :=
  .Inner (some left) (some right) key none 1 version

/-- `Node::height`: cached height of an optional subtree (0 for leaves and
absent children). -/
def height : Option (Node K V) → Nat
  | some (.Inner _ _ _ _ h _) => h
  | some (.Leaf _ _ _ _) => 0
  | none => 0

/-- `Node::get_height`: same body as `Node::height` (the source duplicates
the reader). -/
def get_height : Option (Node K V) → Nat
  | none => 0
  | some (.Leaf _ _ _ _) => 0
  | some (.Inner _ _ _ _ h _) => h

/-- `Node::update_height`: recompute an `Inner` node's cached height from
its children's cached heights. -/
def update_height : Node K V → Node K V
  | .Inner l r k h _ v => .Inner l r k h (max (height l) (height r) + 1) v
  | .Leaf k v ver h => .Leaf k v ver h

/-- `Node::update_hash`: post-order digest computation.  The leaf branch of
the source sets `h = [0; 32]` (a fixed placeholder, not a content hash); an
inner node hashes the two child digests (placeholder for absent children).
Returns the rewritten node together with the digest. -/
def update_hash (sha : List Nat → Bytes32) : Node K V → Node K V × Bytes32
  | .Leaf k v ver _ => (.Leaf k v ver (some zeros32), zeros32)
  | .Inner left right key _ ht ver =>
      let pl : Option (Node K V) × Bytes32 :=
        match left with
        | some node => (some (update_hash sha node).1, (update_hash sha node).2)
        | none => (none, zeros32)
      let pr : Option (Node K V) × Bytes32 :=
        match right with
        | some node => (some (update_hash sha node).1, (update_hash sha node).2)
        | none => (none, zeros32)
      let h := sha (pl.2 ++ pr.2)
      (.Inner pl.1 pr.1 key (some h) ht ver, h)

/-- `Node::rotate_right`; `none` models the `unreachable!` panics and the
`unwrap` on a missing left child. -/
def rotate_right : Node K V → Option (Node K V)
  | .Leaf _ _ _ _ => none
  | .Inner none _ _ _ _ _ => none
  | .Inner (some (.Leaf _ _ _ _)) _ _ _ _ _ => none
  | .Inner (some (.Inner ll lr lk lh lht lv)) right key h ht ver =>
      let root1 := update_height (.Inner lr right key h ht ver)
      some (update_height (.Inner ll (some root1) lk lh lht lv))

/-- `Node::rotate_left`; `none` models the panic sites. -/
def rotate_left : Node K V → Option (Node K V)
  | .Leaf _ _ _ _ => none
  | .Inner _ none _ _ _ _ => none
  | .Inner _ (some (.Leaf _ _ _ _)) _ _ _ _ => none
  | .Inner left (some (.Inner rl rr rk rh rht rv)) key h ht ver =>
      let root1 := update_height (.Inner left rl key h ht ver)
      some (update_height (.Inner (some root1) rr rk rh rht rv))

/-- `Node::rotate_left_right`: left-right double rotation; the left child is
first rotated left when its right subtree is strictly taller than its left
subtree, then the whole subtree is rotated right. -/
def rotate_left_right : Node K V → Option (Node K V)
  | .Leaf _ _ _ _ => none
  | .Inner none _ _ _ _ _ => none
  | .Inner (some (.Leaf _ _ _ _)) _ _ _ _ _ => none
  | .Inner (some (.Inner ll lr lk lh lht lv)) right key h ht ver =>
      if get_height lr > get_height ll then
        match rotate_left (.Inner ll lr lk lh lht lv) with
        | none => none
        | some rotated_root =>
            rotate_right (update_height (.Inner (some rotated_root) right key h ht ver))
      else
        rotate_right (.Inner (some (.Inner ll lr lk lh lht lv)) right key h ht ver)

/-- `Node::rotate_right_left`: right-left double rotation, mirror image of
`rotate_left_right`. -/
def rotate_right_left : Node K V → Option (Node K V)
  | .Leaf _ _ _ _ => none
  | .Inner _ none _ _ _ _ => none
  | .Inner _ (some (.Leaf _ _ _ _)) _ _ _ _ => none
  | .Inner left (some (.Inner rl rr rk rh rht rv)) key h ht ver =>
      if get_height rl > get_height rr then
        match rotate_right (.Inner rl rr rk rh rht rv) with
        | none => none
        | some rotated_root =>
            rotate_left (update_height (.Inner left (some rotated_root) key h ht ver))
      else
        rotate_left (.Inner left (some (.Inner rl rr rk rh rht rv)) key h ht ver)

/-- `Node::height_difference`: cached height of the left child minus cached
height of the right child (`i8` modelled as `Int`). -/
def height_difference : Node K V → Int
  | .Leaf _ _ _ _ => 0
  | .Inner l r _ _ _ _ => (get_height l : Int) - (get_height r : Int)

/-- `Node::balance`: return unchanged when the balance factor is in
`{-1, 0, 1}`, rotate on `±2`, and hit `unreachable!` (modelled `none`)
otherwise. -/
def balance (root : Node K V) : Option (Node K V) :=
  let height_diff := height_difference root
  if -1 ≤ height_diff ∧ height_diff ≤ 1 then
    some root
  else
    match height_diff with
    | 2 => rotate_left_right root
    | -2 => rotate_right_left root
    | _ => none

variable [LinearOrder K]

/-- `Node::insert`: recursive descent (strictly smaller keys go left,
everything else right), splitting a leaf into an inner node with two
leaves, then `update_height` and `balance` on the way back up.  The
`insert_in_child` helper of the source is inlined (its body is the inner
`match`); `none` propagates a panic from `balance`. -/
def insert : Node K V → K → V → Nat → Option (Node K V)
  | .Inner left right key h ht v0, new_key, new_value, version =>
      if new_key < key then
        match (match left with
               | some node => insert node new_key new_value version
               | none => some (new_leaf new_key new_value version)) with
        | none => none
        | some nl => balance (update_height (.Inner (some nl) right key h ht v0))
      else
        match (match right with
               | some node => insert node new_key new_value version
               | none => some (new_leaf new_key new_value version)) with
        | none => none
        | some nr => balance (update_height (.Inner left (some nr) key h ht v0))
  | .Leaf k v lver lh, new_key, new_value, version =>
      if new_key < k then
        balance (update_height
          (new_inner k (new_leaf new_key new_value version) (.Leaf k v lver lh) version))
      else
        balance (update_height
          (new_inner new_key (.Leaf k v lver lh) (new_leaf new_key new_value version) version))

/-- `Node::insert_in_child`: insert into an optional subtree, creating a
fresh leaf when it is absent.  The outer `Option` models panic propagation;
the Rust function itself always returns `Some`. -/
def insert_in_child (root : Option (Node K V)) (new_key : K) (new_value : V)
    (version : Nat) : Option (Option (Node K V)) :=
  match root with
  | some node => (insert node new_key new_value version).map some
  | none => some (some (new_leaf new_key new_value version))

/-- `Node::search`: descend with the same comparison as insertion
(`search_key < key` goes left, otherwise right); at a leaf, return the
entry when the keys agree. -/
def search (search_key : K) : Node K V → Option (K × V)
  | .Leaf key value _ _ =>
      if key = search_key then some (key, value) else none
  | .Inner left right key _ _ _ =>
      if search_key < key then
        match left with
        | none => none
        | some node => search search_key node
      else
        match right with
        | none => none
        | some node => search search_key node

end Node

/-- `IAVL<K, V>`: the tree handle, owning the shared optional root and a
version counter (the `Arc<RwLock<…>>` wrapper is a concurrency device with
no sequential content). -/
structure IAVL (K V : Type) : Type where
  root : Option (Node K V)
  version : Nat

/-- `IAVL::new`: empty tree, version 0. -/
def IAVL.new : IAVL K V := ⟨none, 0⟩

/-- `IAVL::insert`: create a root leaf on an empty tree, otherwise delegate
to `Node::insert` with the handle's current version; `none` propagates a
panic. -/
def IAVL.insert [LinearOrder K] (t : IAVL K V) (new_key : K) (new_value : V) :
    Option (IAVL K V) :=
  match t.root with
  | none => some ⟨some (Node.new_leaf new_key new_value t.version), t.version⟩
  | some root => (Node.insert root new_key new_value t.version).map
      (fun r => ⟨some r, t.version⟩)

/-- `IAVL::save_tree`: the zero digest on an empty tree, otherwise
`Node::update_hash` on the root (returning the rewritten handle and the
root digest). -/
def IAVL.save_tree (sha : List Nat → Bytes32) (t : IAVL K V) :
    IAVL K V × Bytes32 :=
  match t.root with
  | none => (t, zeros32)
  | some root => (⟨some (Node.update_hash sha root).1, t.version⟩,
      (Node.update_hash sha root).2)

/-- Repeated application of the public `IAVL::insert` operation; `none`
records that some insertion panicked. -/
def runInserts [LinearOrder K] : IAVL K V → List (K × V) → Option (IAVL K V)
  | t, [] => some t
  | t, kv :: rest =>
      match t.insert kv.1 kv.2 with
      | none => none
      | some t' => runInserts t' rest

/-- Search from the handle's root, as `get_account_shared_data` does
(`root_guard.as_ref().and_then(|root| Node::search(…))`). -/
def IAVL.search_root [LinearOrder K] (search_key : K) (t : IAVL K V) :
    Option (K × V) :=
  match t.root with
  | none => none
  | some root => Node.search search_key root

/-- The boundary (or leaf) key stored at the root, used to state shape
facts. -/
def IAVL.rootKey (t : IAVL K V) : Option K :=
  match t.root with
  | none => none
  | some (.Leaf k _ _ _) => some k
  | some (.Inner _ _ k _ _ _) => some k

/-! ## Specification-side notions

`realHeight`, key lists and the invariants below are the quantities the
spec's sentences are about (§3 of the spec): a terminal has height 0, a
branch has height `1 + max` of its children, an absent child has height 0.
-/

/-- Height as defined by the spec, ignoring the cached field. -/
def Node.realHeight : Node K V → Nat
  | .Leaf _ _ _ _ => 0
  | .Inner l r _ _ _ _ =>
      max (match l with | none => 0 | some n => n.realHeight)
          (match r with | none => 0 | some n => n.realHeight) + 1

/-- `realHeight` of an optional subtree. -/
def Node.realHeightO : Option (Node K V) → Nat
  | none => 0
  | some n => n.realHeight

/-- All keys reachable in a tree (boundary keys and leaf keys), in
left-to-right order. -/
def Node.keys : Node K V → List K
  | .Leaf k _ _ _ => [k]
  | .Inner l r k _ _ _ =>
      (match l with | none => [] | some n => n.keys) ++
        k :: (match r with | none => [] | some n => n.keys)

/-- `keys` of an optional subtree. -/
def Node.keysO : Option (Node K V) → List K
  | none => []
  | some n => n.keys

/-- Every `Inner` node has both children present. -/
def Node.full : Node K V → Prop
  | .Leaf _ _ _ _ => True
  | .Inner l r _ _ _ _ =>
      (∃ ln, l = some ln) ∧ (∃ rn, r = some rn) ∧
      (match l with | none => True | some n => n.full) ∧
      (match r with | none => True | some n => n.full)

/-- `full` of an optional subtree. -/
def Node.fullO : Option (Node K V) → Prop
  | none => True
  | some n => n.full

/-- Every cached height field equals the spec height. -/
def Node.hOk : Node K V → Prop
  | .Leaf _ _ _ _ => True
  | .Inner l r _ _ ht _ =>
      ht = max (Node.realHeightO l) (Node.realHeightO r) + 1 ∧
      (match l with | none => True | some n => n.hOk) ∧
      (match r with | none => True | some n => n.hOk)

/-- `hOk` of an optional subtree. -/
def Node.hOkO : Option (Node K V) → Prop
  | none => True
  | some n => n.hOk

/-- The claim's balance invariant: every branch's balance factor
`height(left) - height(right)` lies in `{-1, 0, 1}` (spec heights). -/
def Node.bal : Node K V → Prop
  | .Leaf _ _ _ _ => True
  | .Inner l r _ _ _ _ =>
      ((Node.realHeightO l : Int) - (Node.realHeightO r : Int) = -1 ∨
       (Node.realHeightO l : Int) - (Node.realHeightO r : Int) = 0 ∨
       (Node.realHeightO l : Int) - (Node.realHeightO r : Int) = 1) ∧
      (match l with | none => True | some n => n.bal) ∧
      (match r with | none => True | some n => n.bal)

/-- `bal` of an optional subtree. -/
def Node.balO : Option (Node K V) → Prop
  | none => True
  | some n => n.bal

/-- Ordering invariant with a weak left side: keys in the left subtree are
`≤` the boundary key, keys in the right subtree are `≥` it. -/
def Node.ord [LinearOrder K] : Node K V → Prop
  | .Leaf _ _ _ _ => True
  | .Inner l r k _ _ _ =>
      (∀ x ∈ Node.keysO l, x ≤ k) ∧ (∀ x ∈ Node.keysO r, k ≤ x) ∧
      (match l with | none => True | some n => n.ord) ∧
      (match r with | none => True | some n => n.ord)

/-- `ord` of an optional subtree. -/
def Node.ordO [LinearOrder K] : Option (Node K V) → Prop
  | none => True
  | some n => n.ord

/-- The ordering invariant exactly as claimed: keys in the left subtree are
strictly below the boundary key, keys in the right subtree are `≥` it. -/
def Node.ordStrict [LinearOrder K] : Node K V → Prop
  | .Leaf _ _ _ _ => True
  | .Inner l r k _ _ _ =>
      (∀ x ∈ Node.keysO l, x < k) ∧ (∀ x ∈ Node.keysO r, k ≤ x) ∧
      (match l with | none => True | some n => n.ordStrict) ∧
      (match r with | none => True | some n => n.ordStrict)

/-- `ordStrict` of an optional subtree. -/
def Node.ordStrictO [LinearOrder K] : Option (Node K V) → Prop
  | none => True
  | some n => n.ordStrict

/-- The combined structural invariant maintained by insertion. -/
def Node.Inv [LinearOrder K] (n : Node K V) : Prop :=
  n.full ∧ n.hOk ∧ n.bal ∧ n.ord

/-- `Inv` of an optional subtree. -/
def Node.InvO [LinearOrder K] (o : Option (Node K V)) : Prop :=
  Node.fullO o ∧ Node.hOkO o ∧ Node.balO o ∧ Node.ordO o

/-- Last-writer-wins lookup in an operation list: the value of the most
recent entry for a key, if any. -/
def lastVal [DecidableEq K] : List (K × V) → K → Option V
  | [], _ => none
  | kv :: rest, sk =>
      match lastVal rest sk with
      | some w => some w
      | none => if kv.1 = sk then some kv.2 else none

/-- Structural induction principle for `Node` giving hypotheses for the two
optional children. -/
theorem node_ind {motive : Node K V → Prop}
    (leaf : ∀ k v ver h, motive (.Leaf k v ver h))
    (inner : ∀ l r k h ht ver,
      (∀ n, l = some n → motive n) → (∀ n, r = some n → motive n) →
      motive (.Inner l r k h ht ver)) :
    ∀ n, motive n
  | .Leaf k v ver h => leaf k v ver h
  | .Inner l r k h ht ver =>
      inner l r k h ht ver
        (fun n _ => node_ind leaf inner n)
        (fun n _ => node_ind leaf inner n)
decreasing_by
  all_goals subst_vars
  all_goals simp
  all_goals omega

/-! ## Unfolding lemmas -/

@[simp] theorem realHeightO_none : Node.realHeightO (K := K) (V := V) none = 0 := rfl

@[simp] theorem realHeightO_some (n : Node K V) : Node.realHeightO (some n) = n.realHeight := rfl

@[simp] theorem keysO_none : Node.keysO (K := K) (V := V) none = [] := rfl

@[simp] theorem keysO_some (n : Node K V) : Node.keysO (some n) = n.keys := rfl

@[simp] theorem fullO_none : Node.fullO (K := K) (V := V) none := trivial

@[simp] theorem fullO_some (n : Node K V) : Node.fullO (some n) ↔ n.full := Iff.rfl

@[simp] theorem hOkO_none : Node.hOkO (K := K) (V := V) none := trivial

@[simp] theorem hOkO_some (n : Node K V) : Node.hOkO (some n) ↔ n.hOk := Iff.rfl

@[simp] theorem balO_none : Node.balO (K := K) (V := V) none := trivial

@[simp] theorem balO_some (n : Node K V) : Node.balO (some n) ↔ n.bal := Iff.rfl

variable [LinearOrder K]

@[simp] theorem ordO_none : Node.ordO (K := K) (V := V) none := trivial

@[simp] theorem ordO_some (n : Node K V) : Node.ordO (some n) ↔ n.ord := Iff.rfl

@[simp] theorem ordStrictO_none : Node.ordStrictO (K := K) (V := V) none := trivial

@[simp] theorem ordStrictO_some (n : Node K V) : Node.ordStrictO (some n) ↔ n.ordStrict := Iff.rfl

@[simp] theorem InvO_none : Node.InvO (K := K) (V := V) none := ⟨trivial, trivial, trivial, trivial⟩

theorem InvO_some (n : Node K V) : Node.InvO (some n) ↔ n.Inv := Iff.rfl

@[simp] theorem realHeight_Leaf (k : K) (v : V) (ver : Nat) (h : Option Bytes32) :
    Node.realHeight (.Leaf k v ver h) = 0 := rfl

theorem realHeight_Inner (l r : Option (Node K V)) (k : K) (h : Option Bytes32) (ht ver : Nat) :
    Node.realHeight (.Inner l r k h ht ver) =
      max (Node.realHeightO l) (Node.realHeightO r) + 1 := by
  cases l <;> cases r <;> rfl

@[simp] theorem keys_Leaf (k : K) (v : V) (ver : Nat) (h : Option Bytes32) :
    Node.keys (.Leaf k v ver h) = [k] := rfl

theorem keys_Inner (l r : Option (Node K V)) (k : K) (h : Option Bytes32) (ht ver : Nat) :
    Node.keys (.Inner l r k h ht ver) = Node.keysO l ++ k :: Node.keysO r := by
  cases l <;> cases r <;> rfl

@[simp] theorem full_Leaf (k : K) (v : V) (ver : Nat) (h : Option Bytes32) :
    Node.full (.Leaf k v ver h) := trivial

theorem full_Inner (l r : Option (Node K V)) (k : K) (h : Option Bytes32) (ht ver : Nat) :
    Node.full (.Inner l r k h ht ver) ↔
      (∃ ln, l = some ln) ∧ (∃ rn, r = some rn) ∧ Node.fullO l ∧ Node.fullO r := by
  cases l <;> cases r <;> simp [Node.full, Node.fullO]

@[simp] theorem hOk_Leaf (k : K) (v : V) (ver : Nat) (h : Option Bytes32) :
    Node.hOk (.Leaf k v ver h) := trivial

theorem hOk_Inner (l r : Option (Node K V)) (k : K) (h : Option Bytes32) (ht ver : Nat) :
    Node.hOk (.Inner l r k h ht ver) ↔
      ht = max (Node.realHeightO l) (Node.realHeightO r) + 1 ∧
        Node.hOkO l ∧ Node.hOkO r := by
  cases l <;> cases r <;> simp [Node.hOk, Node.hOkO]

@[simp] theorem bal_Leaf (k : K) (v : V) (ver : Nat) (h : Option Bytes32) :
    Node.bal (.Leaf k v ver h) := trivial

theorem bal_Inner (l r : Option (Node K V)) (k : K) (h : Option Bytes32) (ht ver : Nat) :
    Node.bal (.Inner l r k h ht ver) ↔
      ((Node.realHeightO l : Int) - (Node.realHeightO r : Int) = -1 ∨
       (Node.realHeightO l : Int) - (Node.realHeightO r : Int) = 0 ∨
       (Node.realHeightO l : Int) - (Node.realHeightO r : Int) = 1) ∧
      Node.balO l ∧ Node.balO r := by
  cases l <;> cases r <;> simp [Node.bal, Node.balO]

@[simp] theorem ord_Leaf (k : K) (v : V) (ver : Nat) (h : Option Bytes32) :
    Node.ord (.Leaf k v ver h) := trivial

theorem ord_Inner (l r : Option (Node K V)) (k : K) (h : Option Bytes32) (ht ver : Nat) :
    Node.ord (.Inner l r k h ht ver) ↔
      (∀ x ∈ Node.keysO l, x ≤ k) ∧ (∀ x ∈ Node.keysO r, k ≤ x) ∧
        Node.ordO l ∧ Node.ordO r := by
  cases l <;> cases r <;> simp [Node.ord, Node.ordO]

@[simp] theorem ordStrict_Leaf (k : K) (v : V) (ver : Nat) (h : Option Bytes32) :
    Node.ordStrict (.Leaf k v ver h) := trivial

theorem ordStrict_Inner (l r : Option (Node K V)) (k : K) (h : Option Bytes32) (ht ver : Nat) :
    Node.ordStrict (.Inner l r k h ht ver) ↔
      (∀ x ∈ Node.keysO l, x < k) ∧ (∀ x ∈ Node.keysO r, k ≤ x) ∧
        Node.ordStrictO l ∧ Node.ordStrictO r := by
  cases l <;> cases r <;> simp [Node.ordStrict, Node.ordStrictO]

@[simp] theorem Inv_Leaf (k : K) (v : V) (ver : Nat) (h : Option Bytes32) :
    Node.Inv (.Leaf k v ver h) := ⟨trivial, trivial, trivial, trivial⟩

theorem Inv_Inner (l r : Option (Node K V)) (k : K) (h : Option Bytes32) (ht ver : Nat) :
    Node.Inv (.Inner l r k h ht ver) ↔
      (∃ ln, l = some ln) ∧ (∃ rn, r = some rn) ∧
      ht = max (Node.realHeightO l) (Node.realHeightO r) + 1 ∧
      ((Node.realHeightO l : Int) - (Node.realHeightO r : Int) = -1 ∨
       (Node.realHeightO l : Int) - (Node.realHeightO r : Int) = 0 ∨
       (Node.realHeightO l : Int) - (Node.realHeightO r : Int) = 1) ∧
      (∀ x ∈ Node.keysO l, x ≤ k) ∧ (∀ x ∈ Node.keysO r, k ≤ x) ∧
      Node.InvO l ∧ Node.InvO r := by
  simp only [Node.Inv, Node.InvO, full_Inner, hOk_Inner, bal_Inner, ord_Inner]
  tauto

@[simp] theorem get_height_none : Node.get_height (K := K) (V := V) none = 0 := rfl

@[simp] theorem get_height_Leaf (k : K) (v : V) (ver : Nat) (h : Option Bytes32) :
    Node.get_height (some (.Leaf k v ver h)) = 0 := rfl

@[simp] theorem get_height_Inner (l r : Option (Node K V)) (k : K) (h : Option Bytes32)
    (ht ver : Nat) : Node.get_height (some (.Inner l r k h ht ver)) = ht := rfl

theorem height_eq_get_height (o : Option (Node K V)) :
    Node.height o = Node.get_height o := by
  rcases o with _ | n
  · rfl
  · cases n <;> rfl

theorem get_height_eq_real (o : Option (Node K V)) (h : Node.hOkO o) :
    Node.get_height o = Node.realHeightO o := by
  rcases o with _ | n
  · rfl
  · cases n with
    | Leaf k v ver hh => rfl
    | Inner l r k hh ht ver =>
        simp only [hOkO_some, hOk_Inner] at h
        simp [realHeight_Inner, h.1]

theorem key_mem_keys (l r : Option (Node K V)) (k : K) (h : Option Bytes32) (ht ver : Nat) :
    k ∈ Node.keys (.Inner l r k h ht ver) := by
  simp [keys_Inner]

/-- `search` on an optional subtree. -/
def Node.searchO (search_key : K) : Option (Node K V) → Option (K × V)
  | none => none
  | some n => n.search search_key

@[simp] theorem searchO_none (sk : K) : Node.searchO (V := V) sk none = none := rfl

@[simp] theorem searchO_some (sk : K) (n : Node K V) :
    Node.searchO sk (some n) = n.search sk := rfl

@[simp] theorem search_Leaf (sk k : K) (v : V) (ver : Nat) (h : Option Bytes32) :
    Node.search sk (.Leaf k v ver h) = if k = sk then some (k, v) else none := rfl

theorem search_Inner (sk : K) (l r : Option (Node K V)) (k : K) (h : Option Bytes32)
    (ht ver : Nat) :
    Node.search sk (.Inner l r k h ht ver) =
      if sk < k then Node.searchO sk l else Node.searchO sk r := by
  cases l <;> cases r <;> by_cases hlt : sk < k <;>
    simp [Node.search, Node.searchO, hlt]

theorem update_height_Inner (l r : Option (Node K V)) (k : K) (h : Option Bytes32)
    (ht ver : Nat) :
    Node.update_height (.Inner l r k h ht ver) =
      .Inner l r k h (max (Node.get_height l) (Node.get_height r) + 1) ver := by
  simp [Node.update_height, height_eq_get_height]

/-! ## Rotation correctness

Each of the four rebalancing paths of `balance` is analysed on the explicit
shape it fires on.  Conclusions: the rotation succeeds (no panic), the
result satisfies the structural invariant, it has the same in-order key
sequence, its height is `max` or `max + 1` of the two subtree heights, and
searching it agrees with searching the unrotated node. -/

theorem rotate_LL_spec (lln lrn r : Node K V) (lk k : K) (lh h : Option Bytes32)
    (lht lv ht0 ver : Nat)
    (hIll : lln.Inv) (hIlr : lrn.Inv) (hIr : r.Inv)
    (hlht : lht = max lln.realHeight lrn.realHeight + 1)
    (hkey1 : ∀ x ∈ lln.keys, x ≤ lk) (hkey2 : ∀ x ∈ lrn.keys, lk ≤ x)
    (hkl : ∀ x ∈ (Node.Inner (some lln) (some lrn) lk lh lht lv : Node K V).keys, x ≤ k)
    (hkr : ∀ x ∈ r.keys, k ≤ x)
    (hal : lln.realHeight = r.realHeight + 1)
    (har1 : r.realHeight ≤ lrn.realHeight)
    (har2 : lrn.realHeight ≤ lln.realHeight) :
    ∃ t' : Node K V,
      Node.rotate_left_right
        (.Inner (some (.Inner (some lln) (some lrn) lk lh lht lv)) (some r) k h ht0 ver) =
        some t' ∧
      t'.Inv ∧
      t'.keys = (lln.keys ++ lk :: lrn.keys) ++ k :: r.keys ∧
      r.realHeight + 2 ≤ t'.realHeight ∧ t'.realHeight ≤ r.realHeight + 3 ∧
      (∀ sk, Node.search sk t' =
        if sk < k then
          Node.search sk (.Inner (some lln) (some lrn) lk lh lht lv)
        else Node.search sk r) := by
  have hgll : Node.get_height (some lln) = lln.realHeight :=
    get_height_eq_real _ hIll.2.1
  have hglr : Node.get_height (some lrn) = lrn.realHeight :=
    get_height_eq_real _ hIlr.2.1
  have hgr : Node.get_height (some r) = r.realHeight :=
    get_height_eq_real _ hIr.2.1
  have hlk_le_k : lk ≤ k := hkl lk (key_mem_keys _ _ _ _ _ _)
  have hlrn_le_k : ∀ x ∈ lrn.keys, x ≤ k := by
    intro x hx
    exact hkl x (by simp [keys_Inner, hx])
  have hcond : ¬ (Node.get_height (some lrn) > Node.get_height (some lln)) := by
    rw [hglr, hgll]; omega
  refine ⟨.Inner (some lln)
      (some (.Inner (some lrn) (some r) k h (max lrn.realHeight r.realHeight + 1) ver))
      lk lh (max lln.realHeight (max lrn.realHeight r.realHeight + 1) + 1) lv, ?_, ?_, ?_, ?_, ?_, ?_⟩
  · simp only [Node.rotate_left_right, Node.rotate_right,
      update_height_Inner, get_height_Inner, hglr, hgr, hgll]
    rw [if_neg (by omega : ¬ lrn.realHeight > lln.realHeight)]
  · rw [Inv_Inner]
    refine ⟨⟨_, rfl⟩, ⟨_, rfl⟩, ?_, ?_, ?_, ?_, ?_, ?_⟩
    · simp [realHeight_Inner]
    · simp only [realHeightO_some, realHeight_Inner]
      omega
    · simpa using hkey1
    · intro x hx
      simp only [keysO_some, keys_Inner, keysO_some, List.mem_append, List.mem_cons] at hx
      rcases hx with hx | hx | hx
      · exact hkey2 x hx
      · exact hx ▸ hlk_le_k
      · exact le_trans hlk_le_k (hkr x hx)
    · exact hIll
    · rw [InvO_some, Inv_Inner]
      refine ⟨⟨_, rfl⟩, ⟨_, rfl⟩, by simp, ?_, by simpa using hlrn_le_k, by simpa using hkr,
        hIlr, hIr⟩
      simp only [realHeightO_some]
      omega
  · simp [keys_Inner, List.append_assoc]
  · simp only [realHeight_Inner, realHeightO_some]
    omega
  · simp only [realHeight_Inner, realHeightO_some]
    omega
  · intro sk
    by_cases h1 : sk < lk <;> by_cases h2 : sk < k
    · simp [search_Inner, h1, h2]
    · exact absurd (lt_of_lt_of_le h1 hlk_le_k) h2
    · simp [search_Inner, h1, h2]
    · simp [search_Inner, h1, h2]

theorem rotate_LR_spec (lln c1 c2 r : Node K V) (lk lrk k : K)
    (lh lrh h : Option Bytes32) (lht lv lrht lrv ht0 ver : Nat)
    (hIll : lln.Inv) (hIc1 : c1.Inv) (hIc2 : c2.Inv) (hIr : r.Inv)
    (hlrht : lrht = max c1.realHeight c2.realHeight + 1)
    (hal : lln.realHeight = r.realHeight)
    (hcd : max c1.realHeight c2.realHeight = r.realHeight)
    (hbal1 : c1.realHeight ≤ c2.realHeight + 1)
    (hbal2 : c2.realHeight ≤ c1.realHeight + 1)
    (hkey1 : ∀ x ∈ lln.keys, x ≤ lk)
    (h_lk_c1 : ∀ x ∈ c1.keys, lk ≤ x)
    (h_c1_lrk : ∀ x ∈ c1.keys, x ≤ lrk)
    (h_lrk_c2 : ∀ x ∈ c2.keys, lrk ≤ x)
    (h_lk_lrk : lk ≤ lrk) (h_lrk_k : lrk ≤ k)
    (h_c2_k : ∀ x ∈ c2.keys, x ≤ k)
    (hkr : ∀ x ∈ r.keys, k ≤ x) :
    ∃ t' : Node K V,
      Node.rotate_left_right
        (.Inner (some (.Inner (some lln)
            (some (.Inner (some c1) (some c2) lrk lrh lrht lrv)) lk lh lht lv))
          (some r) k h ht0 ver) = some t' ∧
      t'.Inv ∧
      t'.keys = (lln.keys ++ lk :: (c1.keys ++ lrk :: c2.keys)) ++ k :: r.keys ∧
      r.realHeight + 2 ≤ t'.realHeight ∧ t'.realHeight ≤ r.realHeight + 3 ∧
      (∀ sk, Node.search sk t' =
        if sk < k then
          Node.search sk (.Inner (some lln)
            (some (.Inner (some c1) (some c2) lrk lrh lrht lrv)) lk lh lht lv)
        else Node.search sk r) := by
  have hgll : Node.get_height (some lln) = lln.realHeight :=
    get_height_eq_real _ hIll.2.1
  have hgc1 : Node.get_height (some c1) = c1.realHeight :=
    get_height_eq_real _ hIc1.2.1
  have hgc2 : Node.get_height (some c2) = c2.realHeight :=
    get_height_eq_real _ hIc2.2.1
  have hgr : Node.get_height (some r) = r.realHeight :=
    get_height_eq_real _ hIr.2.1
  refine ⟨.Inner
      (some (.Inner (some lln) (some c1) lk lh
        (max lln.realHeight c1.realHeight + 1) lv))
      (some (.Inner (some c2) (some r) k h
        (max c2.realHeight r.realHeight + 1) ver))
      lrk lrh
      (max (max lln.realHeight c1.realHeight + 1)
        (max c2.realHeight r.realHeight + 1) + 1) lrv, ?_, ?_, ?_, ?_, ?_, ?_⟩
  · simp only [Node.rotate_left_right, Node.rotate_left, Node.rotate_right,
      update_height_Inner, get_height_Inner, hgll, hgc1, hgc2, hgr, hlrht]
    rw [if_pos (by omega : max c1.realHeight c2.realHeight + 1 > lln.realHeight)]
  · rw [Inv_Inner]
    refine ⟨⟨_, rfl⟩, ⟨_, rfl⟩, ?_, ?_, ?_, ?_, ?_, ?_⟩
    · simp [realHeight_Inner]
    · simp only [realHeightO_some, realHeight_Inner, realHeightO_some]
      omega
    · intro x hx
      simp only [keysO_some, keys_Inner, keysO_some, List.mem_append, List.mem_cons] at hx
      rcases hx with hx | hx | hx
      · exact le_trans (hkey1 x hx) h_lk_lrk
      · exact hx ▸ h_lk_lrk
      · exact h_c1_lrk x hx
    · intro x hx
      simp only [keysO_some, keys_Inner, keysO_some, List.mem_append, List.mem_cons] at hx
      rcases hx with hx | hx | hx
      · exact h_lrk_c2 x hx
      · exact hx ▸ h_lrk_k
      · exact le_trans h_lrk_k (hkr x hx)
    · rw [InvO_some, Inv_Inner]
      refine ⟨⟨_, rfl⟩, ⟨_, rfl⟩, by simp, ?_, by simpa using hkey1, by simpa using h_lk_c1,
        hIll, hIc1⟩
      simp only [realHeightO_some]
      omega
    · rw [InvO_some, Inv_Inner]
      refine ⟨⟨_, rfl⟩, ⟨_, rfl⟩, by simp, ?_, by simpa using h_c2_k, by simpa using hkr,
        hIc2, hIr⟩
      simp only [realHeightO_some]
      omega
  · simp [keys_Inner, List.append_assoc]
  · simp only [realHeight_Inner, realHeightO_some]
    omega
  · simp only [realHeight_Inner, realHeightO_some]
    omega
  · intro sk
    by_cases h1 : sk < lk <;> by_cases h2 : sk < lrk <;> by_cases h3 : sk < k
    · simp [search_Inner, h1, h2, h3]
    · exact absurd (lt_of_lt_of_le h2 h_lrk_k) h3
    · exact absurd (lt_of_lt_of_le h1 h_lk_lrk) h2
    · exact absurd (lt_of_lt_of_le h1 h_lk_lrk) h2
    · simp [search_Inner, h1, h2, h3]
    · exact absurd (lt_of_lt_of_le h2 h_lrk_k) h3
    · simp [search_Inner, h1, h2, h3]
    · simp [search_Inner, h1, h2, h3]

theorem rotate_RR_spec (l rln rrn : Node K V) (k rk : K) (h rh : Option Bytes32)
    (ht0 ver rht rv : Nat)
    (hIl : l.Inv) (hIrl : rln.Inv) (hIrr : rrn.Inv)
    (hrht : rht = max rln.realHeight rrn.realHeight + 1)
    (hkey1 : ∀ x ∈ rln.keys, x ≤ rk) (hkey2 : ∀ x ∈ rrn.keys, rk ≤ x)
    (hkl : ∀ x ∈ l.keys, x ≤ k)
    (hkr : ∀ x ∈ (Node.Inner (some rln) (some rrn) rk rh rht rv : Node K V).keys, k ≤ x)
    (hbr : rrn.realHeight = l.realHeight + 1)
    (hbl1 : l.realHeight ≤ rln.realHeight)
    (hbl2 : rln.realHeight ≤ rrn.realHeight) :
    ∃ t' : Node K V,
      Node.rotate_right_left
        (.Inner (some l) (some (.Inner (some rln) (some rrn) rk rh rht rv)) k h ht0 ver) =
        some t' ∧
      t'.Inv ∧
      t'.keys = l.keys ++ k :: (rln.keys ++ rk :: rrn.keys) ∧
      l.realHeight + 2 ≤ t'.realHeight ∧ t'.realHeight ≤ l.realHeight + 3 ∧
      (∀ sk, Node.search sk t' =
        if sk < k then Node.search sk l
        else Node.search sk (.Inner (some rln) (some rrn) rk rh rht rv)) := by
  have hgl : Node.get_height (some l) = l.realHeight :=
    get_height_eq_real _ hIl.2.1
  have hgrl : Node.get_height (some rln) = rln.realHeight :=
    get_height_eq_real _ hIrl.2.1
  have hgrr : Node.get_height (some rrn) = rrn.realHeight :=
    get_height_eq_real _ hIrr.2.1
  have hk_le_rk : k ≤ rk := hkr rk (key_mem_keys _ _ _ _ _ _)
  have hrln_ge_k : ∀ x ∈ rln.keys, k ≤ x := by
    intro x hx
    exact hkr x (by simp [keys_Inner, hx])
  refine ⟨.Inner
      (some (.Inner (some l) (some rln) k h (max l.realHeight rln.realHeight + 1) ver))
      (some rrn) rk rh
      (max (max l.realHeight rln.realHeight + 1) rrn.realHeight + 1) rv, ?_, ?_, ?_, ?_, ?_, ?_⟩
  · simp only [Node.rotate_right_left, Node.rotate_left,
      update_height_Inner, get_height_Inner, hgrl, hgrr, hgl]
    rw [if_neg (by omega : ¬ rln.realHeight > rrn.realHeight)]
  · rw [Inv_Inner]
    refine ⟨⟨_, rfl⟩, ⟨_, rfl⟩, ?_, ?_, ?_, ?_, ?_, ?_⟩
    · simp [realHeight_Inner]
    · simp only [realHeightO_some, realHeight_Inner]
      omega
    · intro x hx
      simp only [keysO_some, keys_Inner, keysO_some, List.mem_append, List.mem_cons] at hx
      rcases hx with hx | hx | hx
      · exact le_trans (hkl x hx) hk_le_rk
      · exact hx ▸ hk_le_rk
      · exact hkey1 x hx
    · simpa using hkey2
    · rw [InvO_some, Inv_Inner]
      refine ⟨⟨_, rfl⟩, ⟨_, rfl⟩, by simp, ?_, by simpa using hkl, by simpa using hrln_ge_k,
        hIl, hIrl⟩
      simp only [realHeightO_some]
      omega
    · exact hIrr
  · simp [keys_Inner, List.append_assoc]
  · simp only [realHeight_Inner, realHeightO_some]
    omega
  · simp only [realHeight_Inner, realHeightO_some]
    omega
  · intro sk
    by_cases h1 : sk < k <;> by_cases h2 : sk < rk
    · simp [search_Inner, h1, h2]
    · exact absurd (lt_of_lt_of_le h1 hk_le_rk) h2
    · simp [search_Inner, h1, h2]
    · simp [search_Inner, h1, h2]

theorem rotate_RL_spec (l c1 c2 rrn : Node K V) (k rlk rk : K)
    (h rlh rh : Option Bytes32) (ht0 ver rlht rlv rht rv : Nat)
    (hIl : l.Inv) (hIc1 : c1.Inv) (hIc2 : c2.Inv) (hIrr : rrn.Inv)
    (hrlht : rlht = max c1.realHeight c2.realHeight + 1)
    (hbr : rrn.realHeight = l.realHeight)
    (hcd : max c1.realHeight c2.realHeight = l.realHeight)
    (hbal1 : c1.realHeight ≤ c2.realHeight + 1)
    (hbal2 : c2.realHeight ≤ c1.realHeight + 1)
    (hkl : ∀ x ∈ l.keys, x ≤ k)
    (h_k_c1 : ∀ x ∈ c1.keys, k ≤ x)
    (h_c1_rlk : ∀ x ∈ c1.keys, x ≤ rlk)
    (h_rlk_c2 : ∀ x ∈ c2.keys, rlk ≤ x)
    (h_k_rlk : k ≤ rlk) (h_rlk_rk : rlk ≤ rk)
    (h_c2_rk : ∀ x ∈ c2.keys, x ≤ rk)
    (h_rk_rrn : ∀ x ∈ rrn.keys, rk ≤ x) :
    ∃ t' : Node K V,
      Node.rotate_right_left
        (.Inner (some l)
          (some (.Inner (some (.Inner (some c1) (some c2) rlk rlh rlht rlv))
            (some rrn) rk rh rht rv)) k h ht0 ver) = some t' ∧
      t'.Inv ∧
      t'.keys = l.keys ++ k :: ((c1.keys ++ rlk :: c2.keys) ++ rk :: rrn.keys) ∧
      l.realHeight + 2 ≤ t'.realHeight ∧ t'.realHeight ≤ l.realHeight + 3 ∧
      (∀ sk, Node.search sk t' =
        if sk < k then Node.search sk l
        else Node.search sk (.Inner (some (.Inner (some c1) (some c2) rlk rlh rlht rlv))
          (some rrn) rk rh rht rv)) := by
  have hgl : Node.get_height (some l) = l.realHeight :=
    get_height_eq_real _ hIl.2.1
  have hgc1 : Node.get_height (some c1) = c1.realHeight :=
    get_height_eq_real _ hIc1.2.1
  have hgc2 : Node.get_height (some c2) = c2.realHeight :=
    get_height_eq_real _ hIc2.2.1
  have hgrr : Node.get_height (some rrn) = rrn.realHeight :=
    get_height_eq_real _ hIrr.2.1
  refine ⟨.Inner
      (some (.Inner (some l) (some c1) k h (max l.realHeight c1.realHeight + 1) ver))
      (some (.Inner (some c2) (some rrn) rk rh
        (max c2.realHeight rrn.realHeight + 1) rv))
      rlk rlh
      (max (max l.realHeight c1.realHeight + 1)
        (max c2.realHeight rrn.realHeight + 1) + 1) rlv, ?_, ?_, ?_, ?_, ?_, ?_⟩
  · simp only [Node.rotate_right_left, Node.rotate_left, Node.rotate_right,
      update_height_Inner, get_height_Inner, hgl, hgc1, hgc2, hgrr, hrlht]
    rw [if_pos (by omega : max c1.realHeight c2.realHeight + 1 > rrn.realHeight)]
  · rw [Inv_Inner]
    refine ⟨⟨_, rfl⟩, ⟨_, rfl⟩, ?_, ?_, ?_, ?_, ?_, ?_⟩
    · simp [realHeight_Inner]
    · simp only [realHeightO_some, realHeight_Inner, realHeightO_some]
      omega
    · intro x hx
      simp only [keysO_some, keys_Inner, keysO_some, List.mem_append, List.mem_cons] at hx
      rcases hx with hx | hx | hx
      · exact le_trans (hkl x hx) h_k_rlk
      · exact hx ▸ h_k_rlk
      · exact h_c1_rlk x hx
    · intro x hx
      simp only [keysO_some, keys_Inner, keysO_some, List.mem_append, List.mem_cons] at hx
      rcases hx with hx | hx | hx
      · exact h_rlk_c2 x hx
      · exact hx ▸ h_rlk_rk
      · exact le_trans h_rlk_rk (h_rk_rrn x hx)
    · rw [InvO_some, Inv_Inner]
      refine ⟨⟨_, rfl⟩, ⟨_, rfl⟩, by simp, ?_, by simpa using hkl, by simpa using h_k_c1,
        hIl, hIc1⟩
      simp only [realHeightO_some]
      omega
    · rw [InvO_some, Inv_Inner]
      refine ⟨⟨_, rfl⟩, ⟨_, rfl⟩, by simp, ?_, by simpa using h_c2_rk, by simpa using h_rk_rrn,
        hIc2, hIrr⟩
      simp only [realHeightO_some]
      omega
  · simp [keys_Inner, List.append_assoc]
  · simp only [realHeight_Inner, realHeightO_some]
    omega
  · simp only [realHeight_Inner, realHeightO_some]
    omega
  · intro sk
    by_cases h1 : sk < k <;> by_cases h2 : sk < rlk <;> by_cases h3 : sk < rk
    · simp [search_Inner, h1, h2, h3]
    · exact absurd (lt_of_lt_of_le h2 h_rlk_rk) h3
    · exact absurd (lt_of_lt_of_le h1 h_k_rlk) h2
    · exact absurd (lt_of_lt_of_le h1 h_k_rlk) h2
    · simp [search_Inner, h1, h2, h3]
    · exact absurd (lt_of_lt_of_le h2 h_rlk_rk) h3
    · simp [search_Inner, h1, h2, h3]
    · simp [search_Inner, h1, h2, h3]

theorem balance_eq_same (n : Node K V) (h1 : -1 ≤ n.height_difference)
    (h2 : n.height_difference ≤ 1) : Node.balance n = some n := by
  simp [Node.balance, if_pos (And.intro h1 h2)]

theorem balance_eq_LR (n : Node K V) (h : n.height_difference = 2) :
    Node.balance n = n.rotate_left_right := by
  simp [Node.balance, h]

theorem balance_eq_RL (n : Node K V) (h : n.height_difference = -2) :
    Node.balance n = n.rotate_right_left := by
  simp [Node.balance, h]

/-- Correctness of the rebalancing step as `insert` invokes it: on an inner
node whose two subtrees satisfy the invariant, respect the key bounds and
have heights within 2 of one another, `update_height` followed by `balance`
succeeds and yields an invariant-satisfying tree with the same in-order
keys, a height of `max` or `max + 1` of the subtree heights, and unchanged
search behaviour. -/
theorem balance_spec (l r : Node K V) (k : K) (h : Option Bytes32) (ht0 ver : Nat)
    (hInvL : l.Inv) (hInvR : r.Inv)
    (hkl : ∀ x ∈ l.keys, x ≤ k) (hkr : ∀ x ∈ r.keys, k ≤ x)
    (hd1 : l.realHeight ≤ r.realHeight + 2) (hd2 : r.realHeight ≤ l.realHeight + 2) :
    ∃ t' : Node K V,
      Node.balance (Node.update_height (.Inner (some l) (some r) k h ht0 ver)) = some t' ∧
      t'.Inv ∧
      t'.keys = l.keys ++ k :: r.keys ∧
      max l.realHeight r.realHeight ≤ t'.realHeight ∧
      t'.realHeight ≤ max l.realHeight r.realHeight + 1 ∧
      (l.realHeight ≤ r.realHeight + 1 → r.realHeight ≤ l.realHeight + 1 →
        t'.realHeight = max l.realHeight r.realHeight + 1) ∧
      (∀ sk, Node.search sk t' =
        if sk < k then Node.search sk l else Node.search sk r) := by
  have hgl : Node.get_height (some l) = l.realHeight :=
    get_height_eq_real _ hInvL.2.1
  have hgr : Node.get_height (some r) = r.realHeight :=
    get_height_eq_real _ hInvR.2.1
  rw [update_height_Inner, hgl, hgr]
  have hdiff : Node.height_difference
      (.Inner (some l) (some r) k h (max l.realHeight r.realHeight + 1) ver) =
      (l.realHeight : Int) - r.realHeight := by
    simp [Node.height_difference, hgl, hgr]
  by_cases hnear : l.realHeight ≤ r.realHeight + 1 ∧ r.realHeight ≤ l.realHeight + 1
  · refine ⟨_, balance_eq_same _ (by rw [hdiff]; omega) (by rw [hdiff]; omega),
      ?_, ?_, ?_, ?_, ?_, ?_⟩
    · rw [Inv_Inner]
      exact ⟨⟨_, rfl⟩, ⟨_, rfl⟩, by simp, by simp only [realHeightO_some]; omega,
        by simpa using hkl, by simpa using hkr, hInvL, hInvR⟩
    · simp [keys_Inner]
    · simp only [realHeight_Inner, realHeightO_some]; omega
    · simp only [realHeight_Inner, realHeightO_some]; omega
    · intro _ _
      simp only [realHeight_Inner, realHeightO_some]
    · intro sk
      simp [search_Inner]
  · rcases (by omega : l.realHeight = r.realHeight + 2 ∨ r.realHeight = l.realHeight + 2)
      with hh | hh
    · -- left-heavy: balance dispatches to rotate_left_right
      have hd2' : Node.height_difference
          (.Inner (some l) (some r) k h (max l.realHeight r.realHeight + 1) ver) = 2 := by
        rw [hdiff]; omega
      rw [balance_eq_LR _ hd2']
      match l, hInvL, hkl, hh with
      | .Leaf k0 v0 ver0 h0, hInvL, hkl, hh => simp at hh
      | .Inner ll lr lk lh lht lv, hInvL, hkl, hh =>
        rw [Inv_Inner] at hInvL
        obtain ⟨⟨lln, rfl⟩, ⟨lrn, rfl⟩, hlht, hlbal, hlkey1, hlkey2, hInvLL, hInvLR⟩ := hInvL
        rw [InvO_some] at hInvLL hInvLR
        simp only [realHeightO_some] at hlht hlbal
        simp only [keysO_some] at hlkey1 hlkey2
        have hmaxlr : max lln.realHeight lrn.realHeight + 1 = r.realHeight + 2 := by
          rw [realHeight_Inner] at hh
          simpa using hh
        by_cases hLR : lln.realHeight < lrn.realHeight
        · -- left child right-heavy: double rotation
          have hmax1 : max lln.realHeight lrn.realHeight = lrn.realHeight :=
            max_eq_right (le_of_lt hLR)
          have har : lrn.realHeight = r.realHeight + 1 := by omega
          have hal : lln.realHeight = r.realHeight := by omega
          match lrn, hInvLR, hlkey2, har, hmax1, hLR with
          | .Leaf k1 v1 ver1 h1, hInvLR, hlkey2, har, hmax1, hLR => simp at har
          | .Inner c1o c2o lrk lrh lrht lrv, hInvLR, hlkey2, har, hmax1, hLR =>
            rw [Inv_Inner] at hInvLR
            obtain ⟨⟨c1, rfl⟩, ⟨c2, rfl⟩, hlrht, hlrbal, hlrkey1, hlrkey2, hInvC1, hInvC2⟩ :=
              hInvLR
            rw [InvO_some] at hInvC1 hInvC2
            simp only [realHeightO_some] at hlrht hlrbal
            simp only [keysO_some] at hlrkey1 hlrkey2
            have hcd : max c1.realHeight c2.realHeight = r.realHeight := by
              rw [realHeight_Inner] at har
              simp only [realHeightO_some] at har
              omega
            have h_lk_lrk : lk ≤ lrk := hlkey2 lrk (key_mem_keys _ _ _ _ _ _)
            have h_lrk_k : lrk ≤ k := hkl lrk (by simp [keys_Inner])
            obtain ⟨t', heq, hInv, hkeys, hlow, hhigh, hsearch⟩ :=
              rotate_LR_spec lln c1 c2 r lk lrk k lh lrh h lht lv lrht lrv
                (max (Node.Inner (some lln)
                  (some (.Inner (some c1) (some c2) lrk lrh lrht lrv)) lk lh lht lv :
                    Node K V).realHeight r.realHeight + 1) ver
                hInvLL hInvC1 hInvC2 hInvR hlrht hal hcd (by omega) (by omega)
                hlkey1
                (fun x hx => hlkey2 x (by simp [keys_Inner, hx]))
                hlrkey1 hlrkey2 h_lk_lrk h_lrk_k
                (fun x hx => hkl x (by simp [keys_Inner, hx]))
                hkr
            refine ⟨t', heq, hInv, ?_, ?_, ?_, ?_, hsearch⟩
            · rw [hkeys]
              simp [keys_Inner, List.append_assoc]
            · rw [realHeight_Inner] at hh ⊢
              omega
            · rw [realHeight_Inner] at hh ⊢
              omega
            · intro h1 h2
              omega
        · -- left child not right-heavy: single right rotation
          have hmax1 : max lln.realHeight lrn.realHeight = lln.realHeight :=
            max_eq_left (by omega)
          have hal : lln.realHeight = r.realHeight + 1 := by omega
          obtain ⟨t', heq, hInv, hkeys, hlow, hhigh, hsearch⟩ :=
            rotate_LL_spec lln lrn r lk k lh h lht lv
              (max (Node.Inner (some lln) (some lrn) lk lh lht lv :
                Node K V).realHeight r.realHeight + 1) ver
              hInvLL hInvLR hInvR hlht hlkey1 hlkey2 hkl hkr hal (by omega) (by omega)
          refine ⟨t', heq, hInv, ?_, ?_, ?_, ?_, hsearch⟩
          · rw [hkeys]
            simp [keys_Inner, List.append_assoc]
          · rw [realHeight_Inner] at hh ⊢
            omega
          · rw [realHeight_Inner] at hh ⊢
            omega
          · intro h1 h2
            omega
    · -- right-heavy: balance dispatches to rotate_right_left
      have hd2' : Node.height_difference
          (.Inner (some l) (some r) k h (max l.realHeight r.realHeight + 1) ver) = -2 := by
        rw [hdiff]; omega
      rw [balance_eq_RL _ hd2']
      match r, hInvR, hkr, hh with
      | .Leaf k0 v0 ver0 h0, hInvR, hkr, hh => simp at hh
      | .Inner rl rr rk rh0 rht rv, hInvR, hkr, hh =>
        rw [Inv_Inner] at hInvR
        obtain ⟨⟨rln, rfl⟩, ⟨rrn, rfl⟩, hrht, hrbal, hrkey1, hrkey2, hInvRL, hInvRR⟩ := hInvR
        rw [InvO_some] at hInvRL hInvRR
        simp only [realHeightO_some] at hrht hrbal
        simp only [keysO_some] at hrkey1 hrkey2
        have hmaxlr : max rln.realHeight rrn.realHeight + 1 = l.realHeight + 2 := by
          rw [realHeight_Inner] at hh
          simpa using hh
        by_cases hRL : rrn.realHeight < rln.realHeight
        · -- right child left-heavy: double rotation
          have hmax1 : max rln.realHeight rrn.realHeight = rln.realHeight :=
            max_eq_left (le_of_lt hRL)
          have hbl : rln.realHeight = l.realHeight + 1 := by omega
          have hbr : rrn.realHeight = l.realHeight := by omega
          match rln, hInvRL, hrkey1, hbl, hmax1, hRL with
          | .Leaf k1 v1 ver1 h1, hInvRL, hrkey1, hbl, hmax1, hRL => simp at hbl
          | .Inner c1o c2o rlk rlh rlht rlv, hInvRL, hrkey1, hbl, hmax1, hRL =>
            rw [Inv_Inner] at hInvRL
            obtain ⟨⟨c1, rfl⟩, ⟨c2, rfl⟩, hrlht, hrlbal, hrlkey1, hrlkey2, hInvC1, hInvC2⟩ :=
              hInvRL
            rw [InvO_some] at hInvC1 hInvC2
            simp only [realHeightO_some] at hrlht hrlbal
            simp only [keysO_some] at hrlkey1 hrlkey2
            have hcd : max c1.realHeight c2.realHeight = l.realHeight := by
              rw [realHeight_Inner] at hbl
              simp only [realHeightO_some] at hbl
              omega
            have h_k_rlk : k ≤ rlk := hkr rlk (by simp [keys_Inner])
            have h_rlk_rk : rlk ≤ rk := hrkey1 rlk (key_mem_keys _ _ _ _ _ _)
            obtain ⟨t', heq, hInv, hkeys, hlow, hhigh, hsearch⟩ :=
              rotate_RL_spec l c1 c2 rrn k rlk rk h rlh rh0
                (max l.realHeight (Node.Inner
                  (some (.Inner (some c1) (some c2) rlk rlh rlht rlv))
                  (some rrn) rk rh0 rht rv : Node K V).realHeight + 1) ver rlht rlv rht rv
                hInvL hInvC1 hInvC2 hInvRR hrlht hbr hcd (by omega) (by omega)
                hkl
                (fun x hx => hkr x (by simp [keys_Inner, hx]))
                hrlkey1 hrlkey2 h_k_rlk h_rlk_rk
                (fun x hx => hrkey1 x (by simp [keys_Inner, hx]))
                hrkey2
            refine ⟨t', heq, hInv, ?_, ?_, ?_, ?_, hsearch⟩
            · rw [hkeys]
              simp [keys_Inner, List.append_assoc]
            · rw [realHeight_Inner] at hh ⊢
              omega
            · rw [realHeight_Inner] at hh ⊢
              omega
            · intro h1 h2
              omega
        · -- right child not left-heavy: single left rotation
          have hmax1 : max rln.realHeight rrn.realHeight = rrn.realHeight :=
            max_eq_right (by omega)
          have hbr : rrn.realHeight = l.realHeight + 1 := by omega
          obtain ⟨t', heq, hInv, hkeys, hlow, hhigh, hsearch⟩ :=
            rotate_RR_spec l rln rrn k rk h rh0
              (max l.realHeight (Node.Inner (some rln) (some rrn) rk rh0 rht rv :
                Node K V).realHeight + 1) ver rht rv
              hInvL hInvRL hInvRR hrht hrkey1 hrkey2 hkl hkr hbr (by omega) (by omega)
          refine ⟨t', heq, hInv, ?_, ?_, ?_, ?_, hsearch⟩
          · rw [hkeys]
            simp [keys_Inner, List.append_assoc]
          · rw [realHeight_Inner] at hh ⊢
            omega
          · rw [realHeight_Inner] at hh ⊢
            omega
          · intro h1 h2
            omega

/-- Correctness of one `Node::insert`: on an invariant-satisfying tree it
succeeds, preserves the invariant, grows the height by at most one, adds
exactly the new key to the key set, and afterwards searching finds the new
entry at the inserted key and is unchanged elsewhere. -/
theorem insert_spec (nk : K) (nv : V) (ver : Nat) :
    ∀ t : Node K V, t.Inv →
    ∃ t', Node.insert t nk nv ver = some t' ∧ t'.Inv ∧
      (t'.realHeight = t.realHeight ∨ t'.realHeight = t.realHeight + 1) ∧
      (∀ x, x ∈ t'.keys ↔ x = nk ∨ x ∈ t.keys) ∧
      (∀ sk, Node.search sk t' =
        if sk = nk then some (nk, nv) else Node.search sk t) := by
  intro t
  induction t using node_ind with
  | leaf k v lver lh =>
    intro _
    by_cases hc : nk < k
    · obtain ⟨t', heq, hInv', hkeys, hlow, hhigh, hexact, hsearch⟩ :=
        balance_spec (.Leaf nk nv ver none) (.Leaf k v lver lh) k none 1 ver
          (Inv_Leaf _ _ _ _) (Inv_Leaf _ _ _ _)
          (by intro x hx
              simp only [keys_Leaf, List.mem_singleton] at hx
              exact hx ▸ le_of_lt hc)
          (by intro x hx
              simp only [keys_Leaf, List.mem_singleton] at hx
              exact hx ▸ le_rfl)
          (by simp) (by simp)
      refine ⟨t', ?_, hInv', ?_, ?_, ?_⟩
      · simp only [Node.insert, if_pos hc, Node.new_inner, Node.new_leaf]
        exact heq
      · have h1 := hexact (by simp) (by simp)
        simp only [realHeight_Leaf] at h1 ⊢
        omega
      · intro x
        rw [hkeys]
        simp only [keys_Leaf, List.cons_append, List.nil_append, List.mem_cons,
          List.mem_singleton, List.not_mem_nil, or_false]
        tauto
      · intro sk
        rw [hsearch sk]
        by_cases he : sk = nk
        · subst he
          rw [if_pos hc, if_pos rfl, search_Leaf, if_pos rfl]
        · rw [if_neg he]
          by_cases hsk : sk < k
          · rw [if_pos hsk, search_Leaf, search_Leaf,
              if_neg (fun hh : nk = sk => he hh.symm), if_neg (ne_of_gt hsk)]
          · rw [if_neg hsk]
    · have hk_le : k ≤ nk := le_of_not_lt hc
      obtain ⟨t', heq, hInv', hkeys, hlow, hhigh, hexact, hsearch⟩ :=
        balance_spec (.Leaf k v lver lh) (.Leaf nk nv ver none) nk none 1 ver
          (Inv_Leaf _ _ _ _) (Inv_Leaf _ _ _ _)
          (by intro x hx
              simp only [keys_Leaf, List.mem_singleton] at hx
              exact hx ▸ hk_le)
          (by intro x hx
              simp only [keys_Leaf, List.mem_singleton] at hx
              exact hx ▸ le_rfl)
          (by simp) (by simp)
      refine ⟨t', ?_, hInv', ?_, ?_, ?_⟩
      · simp only [Node.insert, if_neg hc, Node.new_inner, Node.new_leaf]
        exact heq
      · have h1 := hexact (by simp) (by simp)
        simp only [realHeight_Leaf] at h1 ⊢
        omega
      · intro x
        rw [hkeys]
        simp only [keys_Leaf, List.cons_append, List.nil_append, List.mem_cons,
          List.mem_singleton, List.not_mem_nil, or_false]
        tauto
      · intro sk
        rw [hsearch sk]
        by_cases he : sk = nk
        · subst he
          rw [if_neg (lt_irrefl _), if_pos rfl, search_Leaf, if_pos rfl]
        · rw [if_neg he]
          by_cases hsk : sk < nk
          · rw [if_pos hsk]
          · have hnk_lt : nk < sk :=
              lt_of_le_of_ne (le_of_not_lt hsk) (fun hh => he hh.symm)
            rw [if_neg hsk, search_Leaf, search_Leaf,
              if_neg (fun hh : nk = sk => he hh.symm),
              if_neg (ne_of_lt (lt_of_le_of_lt hk_le hnk_lt))]
  | inner l r key h ht v0 ihl ihr =>
    intro hInv
    rw [Inv_Inner] at hInv
    obtain ⟨⟨ln, rfl⟩, ⟨rn, rfl⟩, hht, hbal, hlkey, hrkey, hInvL, hInvR⟩ := hInv
    rw [InvO_some] at hInvL hInvR
    simp only [realHeightO_some] at hht hbal
    simp only [keysO_some] at hlkey hrkey
    by_cases hc : nk < key
    · obtain ⟨ln', heqn, hInvL', hheights, hkeysL, hsearchL⟩ := ihl ln rfl hInvL
      obtain ⟨t', heq, hInv', hkeys, hlow, hhigh, hexact, hsearch⟩ :=
        balance_spec ln' rn key h ht v0 hInvL' hInvR
          (by intro x hx
              rcases (hkeysL x).1 hx with hx' | hx'
              · exact hx' ▸ le_of_lt hc
              · exact hlkey x hx')
          hrkey (by omega) (by omega)
      refine ⟨t', ?_, hInv', ?_, ?_, ?_⟩
      · simp only [Node.insert, if_pos hc, heqn]
        exact heq
      · rw [realHeight_Inner]
        simp only [realHeightO_some]
        by_cases hnear2 : ln'.realHeight ≤ rn.realHeight + 1 ∧
            rn.realHeight ≤ ln'.realHeight + 1
        · have := hexact hnear2.1 hnear2.2
          omega
        · omega
      · intro x
        rw [hkeys, keys_Inner]
        simp only [keysO_some, List.mem_append, List.mem_cons, hkeysL]
        tauto
      · intro sk
        rw [hsearch sk, search_Inner]
        simp only [searchO_some]
        by_cases he : sk = nk
        · subst he
          rw [if_pos rfl, if_pos hc, hsearchL, if_pos rfl]
        · rw [if_neg he]
          by_cases hsk : sk < key
          · rw [if_pos hsk, if_pos hsk, hsearchL, if_neg he]
          · rw [if_neg hsk, if_neg hsk]
    · obtain ⟨rn', heqn, hInvR', hheights, hkeysR, hsearchR⟩ := ihr rn rfl hInvR
      obtain ⟨t', heq, hInv', hkeys, hlow, hhigh, hexact, hsearch⟩ :=
        balance_spec ln rn' key h ht v0 hInvL hInvR'
          hlkey
          (by intro x hx
              rcases (hkeysR x).1 hx with hx' | hx'
              · exact hx' ▸ le_of_not_lt hc
              · exact hrkey x hx')
          (by omega) (by omega)
      refine ⟨t', ?_, hInv', ?_, ?_, ?_⟩
      · simp only [Node.insert, if_neg hc, heqn]
        exact heq
      · rw [realHeight_Inner]
        simp only [realHeightO_some]
        by_cases hnear2 : ln.realHeight ≤ rn'.realHeight + 1 ∧
            rn'.realHeight ≤ ln.realHeight + 1
        · have := hexact hnear2.1 hnear2.2
          omega
        · omega
      · intro x
        rw [hkeys, keys_Inner]
        simp only [keysO_some, List.mem_append, List.mem_cons, hkeysR]
        tauto
      · intro sk
        rw [hsearch sk, search_Inner]
        simp only [searchO_some]
        by_cases he : sk = nk
        · subst he
          rw [if_pos rfl, if_neg hc, hsearchR, if_pos rfl]
        · rw [if_neg he]
          by_cases hsk : sk < key
          · rw [if_pos hsk, if_pos hsk]
          · rw [if_neg hsk, if_neg hsk, hsearchR, if_neg he]

/-! ## Handle-level correctness -/

/-- Invariant of a tree handle: absent root, or a root satisfying the
structural invariant. -/
def IAVL.Inv (t : IAVL K V) : Prop := Node.InvO t.root

theorem iavl_insert_spec (t : IAVL K V) (hInv : t.Inv) (nk : K) (nv : V) :
    ∃ t', t.insert nk nv = some t' ∧ t'.Inv ∧
      (∀ sk, IAVL.search_root sk t' =
        if sk = nk then some (nk, nv) else IAVL.search_root sk t) := by
  rcases t with ⟨root, version⟩
  rcases root with _ | root
  · refine ⟨⟨some (Node.new_leaf nk nv version), version⟩, rfl, ?_, ?_⟩
    · exact (InvO_some (Node.new_leaf nk nv version)).mpr (Inv_Leaf nk nv version none)
    · intro sk
      by_cases he : sk = nk
      · subst he
        simp [IAVL.search_root, Node.new_leaf, Node.search]
      · simp [IAVL.search_root, Node.new_leaf, Node.search,
          if_neg (fun hh : nk = sk => he hh.symm), he]
  · obtain ⟨t', heq, hInv', _, _, hsearch⟩ :=
      insert_spec nk nv version root (by exact hInv)
    refine ⟨⟨some t', version⟩, ?_, hInv', ?_⟩
    · simp [IAVL.insert, heq]
    · intro sk
      simpa [IAVL.search_root] using hsearch sk

/-- Master theorem: any sequence of public insertions from an
invariant-satisfying handle runs to completion, preserves the invariant,
and realises last-writer-wins lookup semantics. -/
theorem runInserts_spec (ops : List (K × V)) :
    ∀ t0 : IAVL K V, t0.Inv →
    ∃ t, runInserts t0 ops = some t ∧ t.Inv ∧
      (∀ sk, IAVL.search_root sk t =
        match lastVal ops sk with
        | some v => some (sk, v)
        | none => IAVL.search_root sk t0) := by
  induction ops with
  | nil =>
    intro t0 h0
    exact ⟨t0, rfl, h0, fun sk => by simp [lastVal]⟩
  | cons kv rest ih =>
    intro t0 h0
    obtain ⟨t1, heq1, hInv1, hsearch1⟩ := iavl_insert_spec t0 h0 kv.1 kv.2
    obtain ⟨t, heqr, hInvt, hsearcht⟩ := ih t1 hInv1
    refine ⟨t, ?_, hInvt, ?_⟩
    · simp only [runInserts, heq1]
      exact heqr
    · intro sk
      rw [hsearcht sk]
      cases hlv : lastVal rest sk with
      | some w => simp [lastVal, hlv]
      | none =>
        simp only [lastVal, hlv]
        rw [hsearch1 sk]
        by_cases he : sk = kv.1
        · rw [if_pos he, if_pos he.symm, he]
        · rw [if_neg he, if_neg (fun hh => he hh.symm)]

/-- Specialisation to the empty tree: insertion sequences never panic, the
invariant holds, and search realises the most-recent-insertion semantics. -/
theorem runInserts_from_empty (ops : List (K × V)) :
    ∃ t, runInserts (IAVL.new : IAVL K V) ops = some t ∧ t.Inv ∧
      (∀ sk, IAVL.search_root sk t = (lastVal ops sk).map (fun v => (sk, v))) := by
  obtain ⟨t, heq, hInv, hsearch⟩ := runInserts_spec ops IAVL.new (by trivial)
  refine ⟨t, heq, hInv, fun sk => ?_⟩
  rw [hsearch sk]
  cases lastVal ops sk <;> simp [IAVL.new, IAVL.search_root]

/-! ## Digest engine, specification side

`spec_digest` renders the digest rule in the spec's words (§4.4): the
reserved placeholder for an absent subtree, the engine's terminal digest
for a leaf, and for a branch the hash of the left child's digest followed
by the right child's digest.  `spec_fill` is the tree with every cache set
to the digest of its own subtree. -/

def spec_digest (sha : List Nat → Bytes32) : Option (Node K V) → Bytes32
  | none => zeros32
  | some (.Leaf _ _ _ _) => zeros32
  | some (.Inner l r _ _ _ _) => sha (spec_digest sha l ++ spec_digest sha r)

def spec_fill (sha : List Nat → Bytes32) : Node K V → Node K V
  | .Leaf k v ver _ => .Leaf k v ver (some zeros32)
  | .Inner l r k _ ht ver =>
      .Inner (match l with | none => none | some n => some (spec_fill sha n))
             (match r with | none => none | some n => some (spec_fill sha n))
             k (some (sha (spec_digest sha l ++ spec_digest sha r))) ht ver

/-- The digest engine refines the specification: `update_hash` returns the
tree with every cache filled with the digest of its subtree, paired with
the root digest. -/
theorem update_hash_eq (sha : List Nat → Bytes32) :
    ∀ n : Node K V,
      Node.update_hash sha n = (spec_fill sha n, spec_digest sha (some n)) := by
  intro n
  induction n using node_ind with
  | leaf k v ver h => simp [Node.update_hash, spec_fill, spec_digest]
  | inner l r k h ht ver ihl ihr =>
    cases l with
    | none =>
      cases r with
      | none => simp [Node.update_hash, spec_fill, spec_digest]
      | some rn => simp [Node.update_hash, spec_fill, spec_digest, ihr rn rfl]
    | some ln =>
      cases r with
      | none => simp [Node.update_hash, spec_fill, spec_digest, ihl ln rfl]
      | some rn =>
        simp [Node.update_hash, spec_fill, spec_digest, ihl ln rfl, ihr rn rfl]

/-! ## Claim theorems -/

/-- Claim C1 (code bug): the digest the digest engine computes and caches
for a Terminal is the fixed all-zero placeholder, for every key, value,
version and previous cache and for every hash function — it is not
`H(key, value, version)` and does not depend on the leaf's content at
all. -/
theorem C1_leaf_digest_is_placeholder (sha : List Nat → Bytes32)
    (k : K) (v : V) (ver : Nat) (h : Option Bytes32) :
    (Node.update_hash sha (.Leaf k v ver h)).2 = zeros32 ∧
    (Node.update_hash sha (.Leaf k v ver h)).1 = .Leaf k v ver (some zeros32) := by
  rw [update_hash_eq]
  exact ⟨by simp [spec_digest], by simp [spec_fill]⟩

/-- Claim C2: for every sequence of insertions starting from the empty
tree, every branch of the resulting tree has balance factor
`height(left) - height(right)` in `{-1, 0, 1}` (spec heights: a terminal
has height 0, a branch `1 + max`); since every such sequence is reachable,
this holds after each insertion of any sequence. -/
theorem C2_balance_invariant (ops : List (K × V)) (t : IAVL K V)
    (h : runInserts IAVL.new ops = some t) : Node.balO t.root := by
  obtain ⟨t0, heq, hInv, -⟩ := runInserts_from_empty (K := K) (V := V) ops
  rw [heq, Option.some_inj] at h
  exact h ▸ hInv.2.2.1

/-- Witness for C2 at the insertion sequence `(1,1), (2,2), (3,3)`. -/
theorem C2_balance_invariant_witness :
    Node.balO (some (Node.Inner (some (.Leaf 1 1 0 none))
      (some (.Inner (some (.Leaf 2 2 0 none)) (some (.Leaf (3:Nat) (3:Nat) 0 none)) 3 none 1 0))
      2 none 2 0)) :=
  C2_balance_invariant [(1, 1), (2, 2), (3, 3)]
    ⟨some (.Inner (some (.Leaf 1 1 0 none))
      (some (.Inner (some (.Leaf 2 2 0 none)) (some (.Leaf 3 3 0 none)) 3 none 1 0))
      2 none 2 0), 0⟩ (by rfl)

/-- Claim C3 counterexample: after inserting key 1 twice (an allowed
re-insertion sequence), the root branch's left subtree holds key 1, equal
to — not strictly less than — the boundary key 1, refuting the claimed
strict ordering invariant. -/
theorem C3_counterexample :
    runInserts (IAVL.new : IAVL Nat Nat) [(1, 10), (1, 20)] =
      some ⟨some (.Inner (some (.Leaf 1 10 0 none)) (some (.Leaf 1 20 0 none)) 1 none 1 0), 0⟩ ∧
    ¬ Node.ordStrictO (some (Node.Inner (some (.Leaf 1 10 0 none))
      (some (.Leaf (1:Nat) (20:Nat) 0 none)) 1 none 1 0)) := by
  refine ⟨rfl, ?_⟩
  simp only [ordStrictO_some, ordStrict_Inner]
  rintro ⟨h1, -, -, -⟩
  exact lt_irrefl 1 (h1 1 (by simp))

/-- Claim C3 (amended): for every tree built by public insertions from the
empty tree, every branch satisfies the weak ordering invariant — every key
reachable in its left subtree is less than or equal to its boundary key
(equality arises exactly from re-inserted duplicate keys), and every key in
its right subtree is greater than or equal to the boundary key. -/
theorem C3_ordering_weak (ops : List (K × V)) (t : IAVL K V)
    (h : runInserts IAVL.new ops = some t) : Node.ordO t.root := by
  obtain ⟨t0, heq, hInv, -⟩ := runInserts_from_empty (K := K) (V := V) ops
  rw [heq, Option.some_inj] at h
  exact h ▸ hInv.2.2.2

/-- Witness for the amended C3 at the duplicate-key sequence
`(5,50), (5,51)`. -/
theorem C3_ordering_weak_witness :
    Node.ordO (some (Node.Inner (some (.Leaf 5 50 0 none))
      (some (.Leaf (5:Nat) (51:Nat) 0 none)) 5 none 1 0)) :=
  C3_ordering_weak [(5, 50), (5, 51)]
    ⟨some (.Inner (some (.Leaf 5 50 0 none)) (some (.Leaf 5 51 0 none)) 5 none 1 0), 0⟩ (by rfl)

/-- Claim C4: for every tree built by a sequence of insertions from the
empty tree, searching any key returns the most recently inserted entry for
that key (`lastVal`), and `none` for a key never inserted. -/
theorem C4_search_most_recent (ops : List (K × V)) (t : IAVL K V)
    (h : runInserts IAVL.new ops = some t) (sk : K) :
    IAVL.search_root sk t = (lastVal ops sk).map (fun v => (sk, v)) := by
  obtain ⟨t0, heq, -, hsearch⟩ := runInserts_from_empty (K := K) (V := V) ops
  rw [heq, Option.some_inj] at h
  exact h ▸ hsearch sk

/-- Witness for C4 at the sequence `(1,10), (2,20), (1,30)`: key 1 was
inserted twice and search returns the later value 30; key 5 was never
inserted and search reports absence. -/
theorem C4_search_most_recent_witness :
    IAVL.search_root 1 (⟨some (.Inner
        (some (.Inner (some (.Leaf 1 10 0 none)) (some (.Leaf 1 30 0 none)) 1 none 1 0))
        (some (.Leaf 2 20 0 none)) 2 none 2 0), 0⟩ : IAVL Nat Nat) = some (1, 30) ∧
    IAVL.search_root 5 (⟨some (.Inner
        (some (.Inner (some (.Leaf 1 10 0 none)) (some (.Leaf 1 30 0 none)) 1 none 1 0))
        (some (.Leaf 2 20 0 none)) 2 none 2 0), 0⟩ : IAVL Nat Nat) = none := by
  constructor
  · exact (C4_search_most_recent [(1, 10), (2, 20), (1, 30)] _ (by rfl) 1).trans (by rfl)
  · exact (C4_search_most_recent [(1, 10), (2, 20), (1, 30)] _ (by rfl) 5).trans (by rfl)

/-- Claim C5 counterexample: inserting `3, 1, 2` into the empty tree yields
a root whose boundary key is 3, not the claimed 2: with leaf-based heights
(a terminal has height 0) the balance factor after the third insertion is
1, so no rotation fires. -/
theorem C5_counterexample :
    runInserts (IAVL.new : IAVL Nat Nat) [(3, 30), (1, 10), (2, 20)] =
      some ⟨some (.Inner
        (some (.Inner (some (.Leaf 1 10 0 none)) (some (.Leaf 2 20 0 none)) 2 none 1 0))
        (some (.Leaf 3 30 0 none)) 3 none 2 0), 0⟩ ∧
    IAVL.rootKey (⟨some (.Inner
        (some (.Inner (some (.Leaf 1 10 0 none)) (some (.Leaf 2 20 0 none)) 2 none 1 0))
        (some (.Leaf 3 30 0 none)) 3 none 2 0), 0⟩ : IAVL Nat Nat) = some 3 ∧
    (3 : Nat) ≠ 2 := ⟨rfl, rfl, by decide⟩

/-- Claim C5 (amended): inserting `3, 1, 2` in order produces the balanced
height-2 tree with root boundary key 3, whose left child is a branch with
boundary key 2 holding the leaves 1 and 2 and whose right child is the
leaf 3; every balance factor stays in `{-1, 0, 1}`, so no rotation
occurs. -/
theorem C5_shape_amended :
    runInserts (IAVL.new : IAVL Nat Nat) [(3, 30), (1, 10), (2, 20)] =
      some ⟨some (.Inner
        (some (.Inner (some (.Leaf 1 10 0 none)) (some (.Leaf 2 20 0 none)) 2 none 1 0))
        (some (.Leaf 3 30 0 none)) 3 none 2 0), 0⟩ ∧
    Node.balO (some (Node.Inner
      (some (.Inner (some (.Leaf 1 10 0 none)) (some (.Leaf 2 20 0 none)) 2 none 1 0))
      (some (.Leaf (3:Nat) (30:Nat) 0 none)) 3 none 2 0)) := by
  refine ⟨rfl, ?_⟩
  simp only [balO_some, bal_Inner, balO_none, realHeightO_some, realHeight_Inner,
    realHeightO_none, realHeight_Leaf]
  norm_num

/-- Claim C6: `save_tree` returns the placeholder digest on an empty tree,
and otherwise computes (and caches) for every branch the hash of the left
child's digest followed by the right child's digest, substituting the
all-zero placeholder for any absent child — stated for every hash
function, hence in particular for SHA3-256. -/
theorem C6_digest_spec (sha : List Nat → Bytes32) :
    (∀ t : IAVL K V, (IAVL.save_tree sha t).2 = spec_digest sha t.root) ∧
    (∀ n : Node K V,
      Node.update_hash sha n = (spec_fill sha n, spec_digest sha (some n))) ∧
    (∀ ver : Nat, (IAVL.save_tree sha (⟨none, ver⟩ : IAVL K V)).2 = zeros32) := by
  refine ⟨?_, update_hash_eq sha, ?_⟩
  · intro t
    rcases t with ⟨root, version⟩
    cases root with
    | none => simp [IAVL.save_tree, spec_digest]
    | some root => simp [IAVL.save_tree, update_hash_eq sha root]
  · intro ver
    simp [IAVL.save_tree]

/-- Claim C7: every sequence of public insertions from the empty tree runs
to completion — none of the fatal internal-error branches (the
`unreachable!` in `balance`, the leaf-rotation panics, and the
missing-child `unwrap`s in the rotation routines, all modelled as `none`)
is ever reached. -/
theorem C7_insert_total (ops : List (K × V)) :
    ∃ t, runInserts (IAVL.new : IAVL K V) ops = some t :=
  (runInserts_from_empty ops).imp (fun _ h => h.1)

/-- Claim C9: in every tree reachable from the empty tree by public
insertions, every branch has both children present. -/
theorem C9_children_present (ops : List (K × V)) (t : IAVL K V)
    (h : runInserts IAVL.new ops = some t) : Node.fullO t.root := by
  obtain ⟨t0, heq, hInv, -⟩ := runInserts_from_empty (K := K) (V := V) ops
  rw [heq, Option.some_inj] at h
  exact h ▸ hInv.1

/-- Witness for C9 at the sequence `(4,4), (6,6)`. -/
theorem C9_children_present_witness :
    Node.fullO (some (Node.Inner (some (.Leaf 4 4 0 none))
      (some (.Leaf (6:Nat) (6:Nat) 0 none)) 6 none 1 0)) :=
  C9_children_present [(4, 4), (6, 6)]
    ⟨some (.Inner (some (.Leaf 4 4 0 none)) (some (.Leaf 6 6 0 none)) 6 none 1 0), 0⟩ (by rfl)

end Iavl
